import Mathlib

/-!
Verification of the contract-extraction pipeline of `app.py`.

Strings are modelled as `List Char` (Python text is a sequence of code
points).  Python's `re` backtracking search is modelled by a small
continuation-passing matcher `mre` over a regex AST `RE`; the patterns of
the source are transcribed constructor by constructor.  Matching is
case-insensitive (every `re.findall` call in the source passes
`re.IGNORECASE`); character classes are modelled on the ASCII range the
source data exercises.  Python `float` values are modelled as rationals.
A Python exception is modelled by `Except.error`.
-/

namespace App

/-- ASCII lower-casing, the behaviour of Python `str.lower` on the ASCII
range (no character lower-cases to an upper-case letter). -/
def asciiLower (c : Char) : Char :=
  if 'A' ≤ c ∧ c ≤ 'Z' then Char.ofNat (c.toNat + 32) else c

def lowerL (s : List Char) : List Char := s.map asciiLower

/-- Model of the regex class `\d` (ASCII digits). -/
def isDigitC (c : Char) : Bool := '0' ≤ c && c ≤ '9'

/-- Model of the regex class `\s` and of the characters stripped by
Python `str.strip` (ASCII whitespace). -/
def isSpaceC (c : Char) : Bool :=
  c = ' ' || c = '\t' || c = '\n' || c = '\r' || c = Char.ofNat 11 || c = Char.ofNat 12

/-- Model of the regex word class `\w` used by the `\b` assertion. -/
def isWordC (c : Char) : Bool :=
  ('a' ≤ c && c ≤ 'z') || ('A' ≤ c && c ≤ 'Z') || isDigitC c || c = '_'

def isLetterC (c : Char) : Bool :=
  ('a' ≤ c && c ≤ 'z') || ('A' ≤ c && c ≤ 'Z')

/-- Does `pat` occur at the head of `s`?  (Used to model the Python `in`
substring test.) -/
def listStarts : List Char → List Char → Bool
  | [], _ => true
  | _ :: _, [] => false
  | p :: ps, c :: cs => p = c && listStarts ps cs

/-- Model of the Python substring test `pat in s`. -/
def containsSub (pat : List Char) : List Char → Bool
  | [] => listStarts pat []
  | c :: cs => listStarts pat (c :: cs) || containsSub pat cs

/-- Number of positions of `s` at which `pat` starts (total number of
occurrences of `pat` in `s`, overlaps included). -/
def countOccs (pat : List Char) : List Char → Nat
  | [] => if listStarts pat [] then 1 else 0
  | c :: cs => (if listStarts pat (c :: cs) then 1 else 0) + countOccs pat cs

/-- Model of Python `str.strip`. -/
def trimBoth (s : List Char) : List Char :=
  ((s.dropWhile isSpaceC).reverse.dropWhile isSpaceC).reverse

def toL (s : String) : List Char := s.toList

/-! ### Backtracking enumeration of the numeric capture groups

The capture group `(\d+(?:,\d{3})*(?:\.\d+)?)` of the currency patterns and
the group `(\d+)` of the duration patterns are enumerated explicitly: for a
given suffix of the text, all (capture, rest) splits the group can produce,
in the priority order of Python backtracking (greedy quantifiers give the
longest alternative first, later choice points vary fastest). -/

/-- Splits of `\d+` against `d ++ r` where `d` is the full digit run:
captures of length `j`, `j-1`, ..., 1. -/
def digitTakes : Nat → List Char → List Char → List (List Char × List Char)
  | 0, _, _ => []
  | j+1, d, r => (d.take (j+1), d.drop (j+1) ++ r) :: digitTakes j d r

/-- All (capture, rest) splits of `\d+` at `s`, longest first. -/
def plusSplits (s : List Char) : List (List Char × List Char) :=
  digitTakes (s.takeWhile isDigitC).length (s.takeWhile isDigitC) (s.dropWhile isDigitC)

/-- One iteration of `(?:,\d{3})*`: a comma followed by exactly three
digits. -/
def commaChunk : List Char → Option (List Char × List Char)
  | ',' :: a :: b :: c :: rest =>
      if isDigitC a && isDigitC b && isDigitC c then some ([',', a, b, c], rest) else none
  | _ => none

def commaSplitsAux : Nat → List Char → List (List Char × List Char)
  | 0, s => [([], s)]
  | f+1, s =>
    match commaChunk s with
    | some (g, rest) =>
        ((commaSplitsAux f rest).map (fun q => (g ++ q.1, q.2))) ++ [([], s)]
    | none => [([], s)]

/-- All (capture, rest) splits of `(?:,\d{3})*` at `s`, most iterations
first.  Each iteration consumes four characters, so fuel `s.length` is
never exhausted. -/
def commaSplits (s : List Char) : List (List Char × List Char) :=
  commaSplitsAux s.length s

/-- All (capture, rest) splits of `(?:\.\d+)?` at `s`: with the dot part
(fraction digits longest first) before without. -/
def dotSplits (s : List Char) : List (List Char × List Char) :=
  match s with
  | '.' :: rest => ((plusSplits rest).map (fun g => ('.' :: g.1, g.2))) ++ [([], s)]
  | _ => [([], s)]

/-- All (capture, rest) splits of `(\d+(?:,\d{3})*(?:\.\d+)?)` at `s`, in
Python backtracking priority order. -/
def numSplits (s : List Char) : List (List Char × List Char) :=
  (plusSplits s).flatMap (fun a =>
    (commaSplits a.2).flatMap (fun b =>
      (dotSplits b.2).map (fun c => (a.1 ++ b.1 ++ c.1, c.2))))

/-- All (capture, rest) splits of `(\d+)` at `s`, longest first. -/
def intSplits (s : List Char) : List (List Char × List Char) := plusSplits s

/-! ### The regex AST and the backtracking matcher -/

/-- Regex AST for the patterns of the source.  `numCap` is the currency
capture group `(\d+(?:,\d{3})*(?:\.\d+)?)`, `intCap` the duration capture
group `(\d+)`, `grp` the general capture group of the organization
patterns, `wb` the `\b` assertion. -/
inductive RE where
  | eps : RE
  | cls : (Char → Bool) → RE
  | cat : RE → RE → RE
  | alt : RE → RE → RE
  | star : RE → RE
  | opt : RE → RE
  | wb : RE
  | grp : RE → RE
  | numCap : RE
  | intCap : RE

/-- Does a `\b` assertion hold between the previously consumed character
and the rest of the text? -/
def wordBoundary (prev : Option Char) (s : List Char) : Bool :=
  (match prev with | some c => isWordC c | none => false) !=
  (match s with | c :: _ => isWordC c | [] => false)

/-- Try a function on each list element in order, returning the first
`some` result (the priority order of backtracking alternatives). -/
def tryEach {α β : Type} : List β → (β → Option α) → Option α
  | [], _ => none
  | b :: bs, g => match g b with
    | some v => some v
    | none => tryEach bs g

/-- The backtracking matcher.  `prev` is the character just before the
current position (for `\b`), `cap` the capture recorded so far, and `k`
the continuation receiving the state after the node has matched.  The
fuel bounds the recursion depth; it is decremented on every recursive
call, and every claim below evaluates the matcher with fuel that is far
beyond the depth any of the source patterns can reach on its text. -/
def mre {α : Type} : Nat → RE → Option Char → List Char → Option (List Char) →
    (Option Char → List Char → Option (List Char) → Option α) → Option α
  | 0, _, _, _, _, _ => none
  | _+1, .eps, prev, s, cap, k => k prev s cap
  | _+1, .cls p, _, s, cap, k =>
      match s with
      | [] => none
      | c :: rest => if p c then k (some c) rest cap else none
  | f+1, .cat a b, prev, s, cap, k =>
      mre f a prev s cap (fun p2 s2 c2 => mre f b p2 s2 c2 k)
  | f+1, .alt a b, prev, s, cap, k =>
      match mre f a prev s cap k with
      | some v => some v
      | none => mre f b prev s cap k
  | f+1, .opt a, prev, s, cap, k =>
      match mre f a prev s cap k with
      | some v => some v
      | none => k prev s cap
  | f+1, .star a, prev, s, cap, k =>
      match mre f a prev s cap (fun p2 s2 c2 =>
          if s2.length < s.length then mre f (.star a) p2 s2 c2 k else k p2 s2 c2) with
      | some v => some v
      | none => k prev s cap
  | _+1, .wb, prev, s, cap, k => if wordBoundary prev s then k prev s cap else none
  | f+1, .grp a, prev, s, cap, k =>
      mre f a prev s cap (fun p2 s2 _ => k p2 s2 (some (s.take (s.length - s2.length))))
  | _+1, .numCap, _, s, _, k =>
      tryEach (numSplits s) (fun pr => k pr.1.getLast? pr.2 (some pr.1))
  | _+1, .intCap, _, s, _, k =>
      tryEach (intSplits s) (fun pr => k pr.1.getLast? pr.2 (some pr.1))

/-- Fuel used to run a pattern at one position: recursion depth is at most
the consumed length plus the pattern depth, which 200 dominates for every
pattern of the source. -/
def fuelFor (s : List Char) : Nat := s.length + 200

/-- Run pattern `r` anchored at the current position; on success return
the capture, the character before the match end and the rest of the text. -/
def runCapAt (r : RE) (prev : Option Char) (s : List Char) :
    Option (List Char × Option Char × List Char) :=
  mre (fuelFor s) r prev s none (fun p2 s2 c =>
    match c with
    | some l => some (l, p2, s2)
    | none => none)

/-- Leftmost match of `r` in `s`, returning its capture: the behaviour of
`re.findall(...)[0]` for a single-group pattern. -/
def findFirstCap (r : RE) : Option Char → List Char → Option (List Char)
  | prev, s =>
    match runCapAt r prev s with
    | some (cap, _, _) => some cap
    | none =>
      match s with
      | [] => none
      | c :: rest => findFirstCap r (some c) rest

/-- All non-overlapping matches of `r` in `s` left to right, returning the
captures: the behaviour of `re.findall` for a single-group pattern. -/
def findAllCaps : Nat → RE → Option Char → List Char → List (List Char)
  | 0, _, _, _ => []
  | f+1, r, prev, s =>
    match runCapAt r prev s with
    | some (cap, p2, s2) =>
      if s2.length < s.length then cap :: findAllCaps f r p2 s2
      else
        match s with
        | [] => [cap]
        | c :: rest => cap :: findAllCaps f r (some c) rest
    | none =>
      match s with
      | [] => []
      | c :: rest => findAllCaps f r (some c) rest

/-! ### Numeric parsing -/

def natOfDigits (l : List Char) : Nat :=
  l.foldl (fun n c => 10 * n + (c.toNat - 48)) 0

/-- Multiplication of a rational by a natural number, written through
`mkRat` so that the kernel can evaluate it (`Rat.mul` is irreducible);
`qMulNat_eq` below identifies it with ordinary multiplication on `ℚ`. -/
def qMulNat (a : ℚ) (n : Nat) : ℚ := mkRat (a.num * n) a.den

/-- Division of a rational by a natural number through `mkRat`;
`qDivNat_eq` below identifies it with ordinary division on `ℚ`. -/
def qDivNat (a : ℚ) (n : Nat) : ℚ := mkRat a.num (a.den * n)

/-- Model of Python `float` on the strings the currency extractor can
feed it: an integer part and an optional fractional part (at least one
digit overall), with value `ip + frac / 10 ^ len`; on anything else the
model is `none`, standing for the `ValueError` that Python would raise. -/
def parseFloat (s : List Char) : Option ℚ :=
  let ip := s.takeWhile isDigitC
  match s.dropWhile isDigitC with
  | [] => if ip.isEmpty then none else some (mkRat (natOfDigits ip) 1)
  | '.' :: frac =>
      if frac.all isDigitC && !(ip.isEmpty && frac.isEmpty) then
        some (mkRat (natOfDigits ip * 10 ^ frac.length + natOfDigits frac) (10 ^ frac.length))
      else none
  | _ => none

/-- Model of Python `int` on a captured string. -/
def parseNatDigits (s : List Char) : Option Nat :=
  if s.isEmpty then none else if s.all isDigitC then some (natOfDigits s) else none

/-- Model of `value_str.replace(",", "")`. -/
def stripCommas (s : List Char) : List Char := s.filter (fun c => c ≠ ',')

/-! ### The patterns of the source, transcribed -/

/-- A literal pattern character under `re.IGNORECASE`. -/
def chrI (c : Char) : RE := .cls (fun x => asciiLower x = asciiLower c)

def litL : List Char → RE
  | [] => .eps
  | c :: cs => .cat (chrI c) (litL cs)

def litI (s : String) : RE := litL s.toList

/-- `\s*` -/
def spS : RE := .star (.cls isSpaceC)

/-- `\s+` -/
def spP : RE := .cat (.cls isSpaceC) (.star (.cls isSpaceC))

def plusR (r : RE) : RE := .cat r (.star r)

/-- Alternation of a non-empty list, leftmost alternative preferred. -/
def altList : List RE → RE
  | [] => .cls (fun _ => false)
  | [r] => r
  | r :: rs => .alt r (altList rs)

/-- A currency pattern: its regex and its Python source string (the source
inspects the pattern string itself to pick the unit normalization). -/
structure ValuePat where
  re : RE
  src : List Char

def numG : RE := .numCap

def valuePatterns : List ValuePat :=
  [ ⟨.cat (chrI '$') (.cat spS (.cat numG (.cat spS (litI "million")))),
      toL "\\$\\s*(\\d+(?:,\\d{3})*(?:\\.\\d+)?)\\s*million"⟩,
    ⟨.cat (chrI '$') (.cat spS (.cat numG (.cat spS (.cat (chrI 'm') .wb)))),
      toL "\\$\\s*(\\d+(?:,\\d{3})*(?:\\.\\d+)?)\\s*m\\b"⟩,
    ⟨.cat (chrI '$') (.cat spS (.cat numG (.cat spS (litI "billion")))),
      toL "\\$\\s*(\\d+(?:,\\d{3})*(?:\\.\\d+)?)\\s*billion"⟩,
    ⟨.cat (chrI '$') (.cat spS (.cat numG (.cat spS (.cat (chrI 'b') .wb)))),
      toL "\\$\\s*(\\d+(?:,\\d{3})*(?:\\.\\d+)?)\\s*b\\b"⟩,
    ⟨.cat (chrI '$') (.cat spS (.cat numG (.cat spS (litI "thousand")))),
      toL "\\$\\s*(\\d+(?:,\\d{3})*(?:\\.\\d+)?)\\s*thousand"⟩,
    ⟨.cat (chrI '$') (.cat spS (.cat numG (.cat spS (.cat (chrI 'k') .wb)))),
      toL "\\$\\s*(\\d+(?:,\\d{3})*(?:\\.\\d+)?)\\s*k\\b"⟩,
    ⟨.cat (litI "worth") (.cat spP (.cat (chrI '$') (.cat spS numG))),
      toL "worth\\s+\\$\\s*(\\d+(?:,\\d{3})*(?:\\.\\d+)?)"⟩,
    ⟨.cat (litI "value") (.cat spP (.cat (litI "of") (.cat spP (.cat (chrI '$') (.cat spS numG))))),
      toL "value\\s+of\\s+\\$\\s*(\\d+(?:,\\d{3})*(?:\\.\\d+)?)"⟩,
    ⟨.cat (litI "contract") (.cat spP (.cat (litI "for") (.cat spP (.cat (chrI '$') (.cat spS numG))))),
      toL "contract\\s+for\\s+\\$\\s*(\\d+(?:,\\d{3})*(?:\\.\\d+)?)"⟩ ]

/-- The unit normalization of `extract_contract_value`, including its
substring tests on the pattern source string, transcribed verbatim. -/
def normValue (src : List Char) (v : ℚ) : ℚ :=
  if containsSub (toL "million") src || containsSub (toL " m\\b") src then v
  else if containsSub (toL "billion") src || containsSub (toL " b\\b") src then qMulNat v 1000
  else if containsSub (toL "thousand") src || containsSub (toL " k\\b") src then qDivNat v 1000
  else qDivNat v 1000000

def evalValuePats : List ValuePat → List Char → Except Unit (Option ℚ)
  | [], _ => .ok none
  | p :: ps, t =>
    match findFirstCap p.re none t with
    | some cap =>
      match parseFloat (stripCommas cap) with
      | some v => .ok (some (normValue p.src v))
      | none => .error ()
    | none => evalValuePats ps t

/-- `extract_contract_value` of the source: first matching pattern in
priority order, first match of that pattern, unit normalization by
substring tests on the pattern string. -/
def extract_contract_value (t : List Char) : Except Unit (Option ℚ) :=
  evalValuePats valuePatterns t

/-- A duration pattern: its regex and Python source string. -/
structure DurPat where
  re : RE
  src : List Char

def yearTail : RE := .cat spS (.cat (litI "year") (.opt (chrI 's')))

def monthTail : RE := .cat spS (.cat (litI "month") (.opt (chrI 's')))

def durationPatterns : List DurPat :=
  [ ⟨.cat .intCap yearTail, toL "(\\d+)\\s*year[s]?"⟩,
    ⟨.cat .intCap monthTail, toL "(\\d+)\\s*month[s]?"⟩,
    ⟨.cat (litI "duration") (.cat spP (.cat (litI "of") (.cat spP (.cat .intCap yearTail)))),
      toL "duration\\s+of\\s+(\\d+)\\s*year[s]?"⟩,
    ⟨.cat (litI "duration") (.cat spP (.cat (litI "of") (.cat spP (.cat .intCap monthTail)))),
      toL "duration\\s+of\\s+(\\d+)\\s*month[s]?"⟩,
    ⟨.cat (litI "term") (.cat spP (.cat (litI "of") (.cat spP (.cat .intCap yearTail)))),
      toL "term\\s+of\\s+(\\d+)\\s*year[s]?"⟩,
    ⟨.cat (litI "term") (.cat spP (.cat (litI "of") (.cat spP (.cat .intCap monthTail)))),
      toL "term\\s+of\\s+(\\d+)\\s*month[s]?"⟩,
    ⟨.cat .intCap (.cat (chrI '-') (litI "year")), toL "(\\d+)-year"⟩,
    ⟨.cat .intCap (.cat (chrI '-') (litI "month")), toL "(\\d+)-month"⟩ ]

def evalDurPats : List DurPat → List Char → Except Unit (Option Nat)
  | [], _ => .ok none
  | p :: ps, t =>
    match findFirstCap p.re none t with
    | some cap =>
      match parseNatDigits cap with
      | some n => .ok (some (if containsSub (toL "year") p.src then n * 12 else n))
      | none => .error ()
    | none => evalDurPats ps t

/-- `extract_duration` of the source. -/
def extract_duration (t : List Char) : Except Unit (Option Nat) :=
  evalDurPats durationPatterns t

/-- `[A-Z]` under `re.IGNORECASE`. -/
def orgHead : RE := .cls isLetterC

/-- `[a-zA-Z\s&]` under `re.IGNORECASE`. -/
def orgBody : RE := .cls (fun c => isLetterC c || isSpaceC c || c = '&')

/-- `(?:Inc\.?|Corp\.?|Corporation|Company|Co\.?|Ltd\.?|Limited|LLC|Group|Solutions|Systems|Technologies|Services)` -/
def orgSuffixDot : RE :=
  altList
    [ .cat (litI "Inc") (.opt (chrI '.')),
      .cat (litI "Corp") (.opt (chrI '.')),
      litI "Corporation", litI "Company",
      .cat (litI "Co") (.opt (chrI '.')),
      .cat (litI "Ltd") (.opt (chrI '.')),
      litI "Limited", litI "LLC", litI "Group", litI "Solutions",
      litI "Systems", litI "Technologies", litI "Services" ]

/-- `(?:Inc|Corp|Corporation|Company|Co|Ltd|Limited|LLC|Group|Solutions|Systems|Technologies|Services)` -/
def orgSuffixPlain : RE :=
  altList
    [ litI "Inc", litI "Corp", litI "Corporation", litI "Company",
      litI "Co", litI "Ltd", litI "Limited", litI "LLC", litI "Group",
      litI "Solutions", litI "Systems", litI "Technologies", litI "Services" ]

/-- First organization pattern of the source. -/
def orgPat1 : RE :=
  .cat .wb (.cat (.grp (.cat orgHead (.cat (plusR orgBody) orgSuffixDot))) .wb)

/-- Second organization pattern of the source (a mandatory space before
the suffix word, no optional period). -/
def orgPat2 : RE :=
  .cat .wb (.cat (.grp (.cat orgHead (.cat (plusR orgBody) (.cat (chrI ' ') orgSuffixPlain)))) .wb)

/-- One step of the collection loop of `extract_organizations`: strip the
match, keep it if longer than 5 characters and not seen before. -/
def orgFoldStep (acc : List (List Char)) (m : List Char) : List (List Char) :=
  let org := trimBoth m
  if 5 < org.length && !(acc.contains org) then acc ++ [org] else acc

/-- `extract_organizations` of the source: all matches of the first
pattern, then all matches of the second, deduplicated, filtered to length
above 5, truncated to 5 entries. -/
def extract_organizations (t : List Char) : List (List Char) :=
  (((findAllCaps (t.length + 1) orgPat2 none t).foldl orgFoldStep
      ((findAllCaps (t.length + 1) orgPat1 none t).foldl orgFoldStep [])).take 5)

/-- The service taxonomy, in its fixed declared order. -/
def SERVICE_TYPES : List (List Char) :=
  [ toL "modernization", toL "cloud", toL "migration", toL "cybersecurity",
    toL "AI", toL "data", toL "infrastructure", toL "application development",
    toL "testing", toL "BPO", toL "managed services", toL "consulting",
    toL "network" ]

def findLabel : List (List Char) → List Char → Option (List Char)
  | [], _ => none
  | l :: ls, tl => if containsSub l tl then some l else findLabel ls tl

/-- `extract_service_type` of the source: lower-case the text, return the
first taxonomy label occurring in it as a substring. -/
def extract_service_type (t : List Char) : Option (List Char) :=
  findLabel SERVICE_TYPES (lowerL t)

/-! ### The summarizer -/

def isSepC (c : Char) : Bool := c = '.' || c = '!' || c = '?'

/-- Model of `re.split(r"[.!?]+", text)`: split on maximal runs of
sentence separators. -/
def splitSents (s : List Char) : List (List Char) :=
  (s.foldr (fun c st =>
    if isSepC c then (true, if st.1 then st.2 else [] :: st.2)
    else (false, match st.2 with
      | [] => [[c]]
      | h :: t => (c :: h) :: t)) ((false, [[]]) : Bool × List (List Char))).2

/-- The sentences that survive the stripping-and-length filter of
`generate_summary`. -/
def survivingSents (t : List Char) : List (List Char) :=
  ((splitSents t).map trimBoth).filter (fun s => 20 < s.length)

def keywords : List (List Char) :=
  [ toL "contract", toL "agreement", toL "award", toL "million",
    toL "services", toL "company", toL "announced" ]

/-- The score `generate_summary` assigns to a sentence:
`sum(1 for keyword in keywords if keyword.lower() in sentence.lower())`. -/
def sentScore (s : List Char) : Nat :=
  keywords.countP (fun kw => containsSub (lowerL kw) (lowerL s))

/-- The scored list built from the first 10 surviving sentences. -/
def scoredOf (t : List Char) : List (Nat × List Char) :=
  ((survivingSents t).take 10).map (fun s => (sentScore s, s))

/-- Stable insertion keeping earlier elements with greater-or-equal score
in front (Python `list.sort(key=..., reverse=True)` is a stable
descending sort). -/
def insGE (x : Nat × List Char) : List (Nat × List Char) → List (Nat × List Char)
  | [] => [x]
  | y :: ys => if x.1 ≤ y.1 then y :: insGE x ys else x :: y :: ys

def sortScored (l : List (Nat × List Char)) : List (Nat × List Char) :=
  l.foldl (fun acc x => insGE x acc) []

/-- Model of `". ".join(top_sentences)`. -/
def joinPieces : List (List Char) → List Char
  | [] => []
  | [s] => s
  | s :: r => s ++ toL ". " ++ joinPieces r

def noSummary : List Char := toL "No summary available"

/-- The chosen sentences: the scored list stably sorted by descending
score, truncated to `max_sentences`, scores dropped. -/
def summaryTop (maxSentences : Nat) (t : List Char) : List (List Char) :=
  ((sortScored (scoredOf t)).take maxSentences).map (fun p => p.2)

/-- The final truncation of `generate_summary`: cut to 500 characters and
append an ellipsis when longer than 500. -/
def truncate500 (s : List Char) : List Char :=
  if 500 < s.length then s.take 500 ++ toL "..." else s

/-- `generate_summary` of the source with explicit `max_sentences`. -/
def generate_summary_max (maxSentences : Nat) (t : List Char) : List Char :=
  if t.isEmpty then noSummary
  else if (survivingSents t).isEmpty then noSummary
  else truncate500 (joinPieces (summaryTop maxSentences t))

/-- `generate_summary` at its default `max_sentences = 3`. -/
def generate_summary (t : List Char) : List Char := generate_summary_max 3 t

/-! ### The page processor -/

/-- The value `fetch_page_content` produces on success: the cleaned text
in lower case and original case, the title and the publication date. -/
structure ContentData where
  text : List Char
  original_text : List Char
  title : List Char
  publication_date : List Char
deriving DecidableEq

/-- The record `process_contract_page` assembles. -/
structure Record where
  url : List Char
  title : List Char
  announcement_date : List Char
  summary : List Char
  estimated_value : Option ℚ
  vendor : Option (List Char)
  client : Option (List Char)
  duration_months : Option Nat
  service_type : Option (List Char)
deriving DecidableEq

/-- `process_contract_page` of the source.  The network fetch is the
excluded collaborator: its outcome (`None` on any fetch or parse failure)
is the `fetched` argument.  The qualifying gate requires the literal
substring "contract" in the lower-cased text. -/
def process_contract_page (url : List Char) (fetched : Option ContentData) :
    Except Unit (Option Record) :=
  match fetched with
  | none => .ok none
  | some cd =>
    if containsSub (toL "contract") cd.text then
      match extract_contract_value cd.text with
      | .error e => .error e
      | .ok value =>
        match extract_duration cd.text with
        | .error e => .error e
        | .ok duration =>
          let orgs := extract_organizations cd.original_text
          .ok (some
            { url := url
              title := cd.title
              announcement_date := cd.publication_date
              summary := generate_summary cd.original_text
              estimated_value := value
              vendor := orgs.head?
              client := orgs.get? 1
              duration_months := duration
              service_type := extract_service_type cd.text })
    else .ok none

deriving instance DecidableEq for Except

/-! ### Spec-side definitions

These follow the wording of the claims, to be compared with the
definitions transcribed from the source. -/

/-- The duration patterns as the spec describes them: the same eight
regexes in the same priority order, each tagged with an explicit flag
saying whether it is a year pattern (months are obtained by multiplying
the captured integer by 12). -/
def durationSpecList : List (RE × Bool) :=
  [ (.cat .intCap yearTail, true),
    (.cat .intCap monthTail, false),
    (.cat (litI "duration") (.cat spP (.cat (litI "of") (.cat spP (.cat .intCap yearTail)))), true),
    (.cat (litI "duration") (.cat spP (.cat (litI "of") (.cat spP (.cat .intCap monthTail)))), false),
    (.cat (litI "term") (.cat spP (.cat (litI "of") (.cat spP (.cat .intCap yearTail)))), true),
    (.cat (litI "term") (.cat spP (.cat (litI "of") (.cat spP (.cat .intCap monthTail)))), false),
    (.cat .intCap (.cat (chrI '-') (litI "year")), true),
    (.cat .intCap (.cat (chrI '-') (litI "month")), false) ]

def evalDurSpec : List (RE × Bool) → List Char → Except Unit (Option Nat)
  | [], _ => .ok none
  | p :: ps, t =>
    match findFirstCap p.1 none t with
    | some cap =>
      match parseNatDigits cap with
      | some n => .ok (some (if p.2 then n * 12 else n))
      | none => .error ()
    | none => evalDurSpec ps t

/-- The duration extractor as described by claim C9. -/
def durationSpec (t : List Char) : Except Unit (Option Nat) :=
  evalDurSpec durationSpecList t

/-- The sentence score as claim C5 reads it: the total number of keyword
occurrences, a keyword occurring k times contributing k. -/
def occScore (s : List Char) : Nat :=
  (keywords.map (fun kw => countOccs (lowerL kw) (lowerL s))).sum

/-- The sentence score as the code computes it, restated through
occurrence counts: the number of distinct keywords occurring at least
once. -/
def distinctScore (s : List Char) : Nat :=
  (keywords.filter (fun kw => decide (0 < countOccs (lowerL kw) (lowerL s)))).length

/-- The eleven taxonomy labels other than "AI" and "BPO". -/
def otherLabels : List (List Char) :=
  [ toL "modernization", toL "cloud", toL "migration", toL "cybersecurity",
    toL "data", toL "infrastructure", toL "application development",
    toL "testing", toL "managed services", toL "consulting", toL "network" ]

/-! ### Fixtures -/

/-- The original-case body text of the end-to-end fixture of claim C1. -/
def c1Original : List Char :=
  toL "Acme Corp announces $5 million contract with Beta Inc for 12 months of cloud services"

/-- The fetched content of the C1 fixture: the normalized text in lower
case, the original-case text, a title and a date. -/
def c1Content : ContentData :=
  { text := lowerL c1Original
    original_text := c1Original
    title := toL "Press Release"
    publication_date := toL "2024-01-05" }

/-- The input of claim C5's counterexample: one sentence in which the
keyword "company" occurs three times and "contract" once. -/
def c5Text : List Char :=
  toL "The company reported that the company signed a company contract"

/-! ### Basic lemmas -/

theorem toNat_ofNat_small (n : Nat) (h : n < 55296) : (Char.ofNat n).toNat = n := by
  rw [Char.ofNat, dif_pos (Or.inl h)]
  simp [Char.ofNatAux, Char.toNat, UInt32.toNat, Nat.mod_eq_of_lt (by omega : n < 4294967296)]

/-- Lower-casing never produces an upper-case ASCII letter. -/
theorem asciiLower_ne (u : Char) (hu : 'A' ≤ u ∧ u ≤ 'Z') (x : Char) : asciiLower x ≠ u := by
  unfold asciiLower
  split
  · rename_i hcase
    intro heq
    have h1 : (65 : Nat) ≤ x.toNat := hcase.1
    have h2 : x.toNat ≤ (90 : Nat) := hcase.2
    have h3 : (Char.ofNat (x.toNat + 32)).toNat = x.toNat + 32 :=
      toNat_ofNat_small _ (by omega)
    have h4 : u.toNat ≤ (90 : Nat) := hu.2
    have h6 := congrArg Char.toNat heq
    omega
  · rename_i hcase
    intro heq
    subst heq
    exact hcase hu

/-- The `mkRat` form of multiplication used in the embedding is ordinary
multiplication on `ℚ`. -/
theorem qMulNat_eq (a : ℚ) (n : Nat) : qMulNat a n = a * n := by
  unfold qMulNat
  rw [Rat.mkRat_eq_div]
  push_cast
  rw [mul_div_right_comm, Rat.num_div_den]

/-- The `mkRat` form of division used in the embedding is ordinary
division on `ℚ`. -/
theorem qDivNat_eq (a : ℚ) (n : Nat) : qDivNat a n = a / n := by
  unfold qDivNat
  rw [Rat.mkRat_eq_div]
  push_cast
  rw [← div_div, Rat.num_div_den]

/-- The `mkRat` value built by `parseFloat` is the decimal value
`ip + frac / 10 ^ len`. -/
theorem mkRat_decimal (i fr f : Nat) :
    (mkRat (i * 10 ^ f + fr) (10 ^ f) : ℚ) = i + fr / 10 ^ f := by
  rw [Rat.mkRat_eq_div]
  push_cast
  rw [add_div]
  congr 1
  rw [mul_div_assoc]
  simp

theorem tryEach_some {α β : Type} (l : List β) (g : β → Option α) (v : α)
    (h : tryEach l g = some v) : ∃ b ∈ l, g b = some v := by
  induction l with
  | nil => simp [tryEach] at h
  | cons b bs ih =>
    simp only [tryEach] at h
    rcases hb : g b with _ | w
    · rw [hb] at h
      rcases ih h with ⟨b2, hmem, hgb2⟩
      exact ⟨b2, List.mem_cons_of_mem _ hmem, hgb2⟩
    · rw [hb] at h
      exact ⟨b, List.mem_cons_self _ _, hb.trans h⟩

/-- The Python substring test agrees with the occurrence count. -/
theorem containsSub_iff_countOccs (p s : List Char) :
    containsSub p s = true ↔ 0 < countOccs p s := by
  induction s with
  | nil => by_cases h : listStarts p [] <;> simp [containsSub, countOccs, h]
  | cons c cs ih =>
    by_cases h : listStarts p (c :: cs) <;>
      simp [containsSub, countOccs, h, ih]

theorem takeWhile_append_all (p : Char → Bool) (l m : List Char) (h : l.all p = true) :
    (l ++ m).takeWhile p = l ++ m.takeWhile p := by
  induction l with
  | nil => simp
  | cons c t ih =>
    simp only [List.all_cons, Bool.and_eq_true] at h
    simp [List.takeWhile_cons, h.1, ih h.2]

theorem dropWhile_append_all (p : Char → Bool) (l m : List Char) (h : l.all p = true) :
    (l ++ m).dropWhile p = m.dropWhile p := by
  induction l with
  | nil => simp
  | cons c t ih =>
    simp only [List.all_cons, Bool.and_eq_true] at h
    simp [List.dropWhile_cons, h.1, ih h.2]

theorem stripCommas_append (a b : List Char) :
    stripCommas (a ++ b) = stripCommas a ++ stripCommas b := by
  simp [stripCommas, List.filter_append]

theorem stripCommas_of_no_comma (l : List Char) (h : ∀ c ∈ l, c ≠ ',') :
    stripCommas l = l := by
  rw [stripCommas, List.filter_eq_self]
  intro a ha
  simpa using h a ha

theorem stripCommas_all_digits (l : List Char) (h : l.all isDigitC = true) :
    stripCommas l = l := by
  refine stripCommas_of_no_comma l (fun c hc hcc => ?_)
  have := (List.all_eq_true.1 h) c hc
  subst hcc
  simp [isDigitC] at this

theorem parseFloat_digits (l : List Char) (h1 : l ≠ []) (h2 : l.all isDigitC = true) :
    (parseFloat l).isSome = true := by
  have ht : l.takeWhile isDigitC = l := by
    simpa using takeWhile_append_all isDigitC l [] h2
  have hd : l.dropWhile isDigitC = [] := by
    simpa using dropWhile_append_all isDigitC l [] h2
  simp [parseFloat, ht, hd, h1]

theorem parseFloat_digits_dot (d fr : List Char) (h1 : d ≠ []) (h2 : d.all isDigitC = true)
    (h3 : fr.all isDigitC = true) : (parseFloat (d ++ '.' :: fr)).isSome = true := by
  have ht : (d ++ '.' :: fr).takeWhile isDigitC = d := by
    rw [takeWhile_append_all isDigitC d ('.' :: fr) h2]
    simp [List.takeWhile_cons, isDigitC]
  have hd : (d ++ '.' :: fr).dropWhile isDigitC = '.' :: fr := by
    rw [dropWhile_append_all isDigitC d ('.' :: fr) h2]
    simp [List.dropWhile_cons, isDigitC]
  simp [parseFloat, ht, hd, h3, h1]

/-! ### Shape of the numeric captures -/

theorem digit_ne_comma (c : Char) (h : isDigitC c = true) : c ≠ ',' := by
  intro hc
  subst hc
  exact absurd h (by decide)

theorem digitTakes_shape (j : Nat) (d r : List Char) (hj : j ≤ d.length)
    (hd : d.all isDigitC = true) :
    ∀ pr ∈ digitTakes j d r, pr.1 ≠ [] ∧ pr.1.all isDigitC = true := by
  induction j with
  | zero => simp [digitTakes]
  | succ j ih =>
    intro pr hpr
    simp only [digitTakes] at hpr
    rcases List.mem_cons.1 hpr with hpr | hpr
    · subst hpr
      constructor
      · have hlen : 0 < (d.take (j + 1)).length := by
          rw [List.length_take]
          omega
        exact List.length_pos.1 hlen
      · exact List.all_eq_true.2 (fun c hc =>
          (List.all_eq_true.1 hd) c (List.take_subset _ _ hc))
    · exact ih (by omega) pr hpr

theorem takeWhile_all (p : Char → Bool) (s : List Char) :
    (s.takeWhile p).all p = true := by
  induction s with
  | nil => simp
  | cons c t ih =>
    by_cases hc : p c <;> simp [List.takeWhile_cons, hc, ih]

theorem plusSplits_shape (s : List Char) :
    ∀ pr ∈ plusSplits s, pr.1 ≠ [] ∧ pr.1.all isDigitC = true := by
  intro pr hpr
  exact digitTakes_shape _ _ _ (by simp) (takeWhile_all isDigitC s) pr hpr

theorem commaChunk_digits (s : List Char) (g : List Char) (rest : List Char)
    (h : commaChunk s = some (g, rest)) :
    (stripCommas g).all isDigitC = true := by
  unfold commaChunk at h
  split at h
  · rename_i a b c r
    split at h
    · rename_i hdig
      simp only [Option.some_inj, Prod.mk.injEq] at h
      simp only [Bool.and_eq_true] at hdig
      have ha := digit_ne_comma a hdig.1.1
      have hb := digit_ne_comma b hdig.1.2
      have hc := digit_ne_comma c hdig.2
      rw [← h.1]
      simp [stripCommas, List.filter_cons, ha, hb, hc, hdig.1.1, hdig.1.2, hdig.2]
    · exact absurd h (by simp)
  · exact absurd h (by simp)

theorem commaSplitsAux_stripped (f : Nat) :
    ∀ s, ∀ pr ∈ commaSplitsAux f s, (stripCommas pr.1).all isDigitC = true := by
  induction f with
  | zero =>
    intro s pr hpr
    simp only [commaSplitsAux, List.mem_singleton] at hpr
    subst hpr
    simp [stripCommas]
  | succ f ih =>
    intro s pr hpr
    simp only [commaSplitsAux] at hpr
    rcases hc : commaChunk s with _ | ⟨g, rest⟩
    · rw [hc] at hpr
      simp only [List.mem_singleton] at hpr
      subst hpr
      simp [stripCommas]
    · rw [hc] at hpr
      rcases List.mem_append.1 hpr with hpr | hpr
      · rcases List.mem_map.1 hpr with ⟨q, hq, rfl⟩
        have h1 := ih rest q hq
        have h2 := commaChunk_digits s g rest hc
        rw [stripCommas_append]
        simp only [List.all_append]
        simp [h1, h2]
      · simp only [List.mem_singleton] at hpr
        subst hpr
        simp [stripCommas]

theorem commaSplits_stripped (s : List Char) :
    ∀ pr ∈ commaSplits s, (stripCommas pr.1).all isDigitC = true :=
  commaSplitsAux_stripped s.length s

theorem dotSplits_shape (s : List Char) :
    ∀ pr ∈ dotSplits s,
      pr.1 = [] ∨ ∃ fr, pr.1 = '.' :: fr ∧ fr ≠ [] ∧ fr.all isDigitC = true := by
  intro pr hpr
  unfold dotSplits at hpr
  split at hpr
  · rename_i rest
    rcases List.mem_append.1 hpr with hpr | hpr
    · rcases List.mem_map.1 hpr with ⟨g, hg, rfl⟩
      have := plusSplits_shape rest g hg
      exact Or.inr ⟨g.1, rfl, this.1, this.2⟩
    · simp only [List.mem_singleton] at hpr
      subst hpr
      exact Or.inl rfl
  · simp only [List.mem_singleton] at hpr
    subst hpr
    exact Or.inl rfl

/-- Every capture the currency number group can produce parses as a
float after comma removal. -/
theorem numSplits_parse (s : List Char) :
    ∀ pr ∈ numSplits s, (parseFloat (stripCommas pr.1)).isSome = true := by
  intro pr hpr
  unfold numSplits at hpr
  rcases List.mem_flatMap.1 hpr with ⟨a, ha, hpr⟩
  rcases List.mem_flatMap.1 hpr with ⟨b, hb, hpr⟩
  rcases List.mem_map.1 hpr with ⟨c, hc, rfl⟩
  have hA := plusSplits_shape s a ha
  have hB := commaSplits_stripped a.2 b hb
  have hC := dotSplits_shape b.2 c hc
  have hsplit : stripCommas (a.1 ++ b.1 ++ c.1) =
      (a.1 ++ stripCommas b.1) ++ stripCommas c.1 := by
    rw [stripCommas_append, stripCommas_append, stripCommas_all_digits a.1 hA.2]
  have hdig : (a.1 ++ stripCommas b.1).all isDigitC = true := by
    simp only [List.all_append]
    simp [hA.2, hB]
  have hne : a.1 ++ stripCommas b.1 ≠ [] := by
    intro hnil
    exact hA.1 (List.append_eq_nil.1 hnil).1
  rcases hC with hC | ⟨fr, hfr, hfrne, hfrd⟩
  · rw [hsplit, hC]
    simp only [stripCommas, List.filter_nil, List.append_nil]
    exact parseFloat_digits _ hne hdig
  · rw [hsplit, hfr]
    have hsc : stripCommas ('.' :: fr) = '.' :: fr := by
      apply stripCommas_of_no_comma
      intro ch hch
      rcases List.mem_cons.1 hch with hch | hch
      · subst hch
        decide
      · exact digit_ne_comma ch ((List.all_eq_true.1 hfrd) ch hch)
    rw [hsc]
    exact parseFloat_digits_dot _ fr hne hdig hfrd

/-- Every capture the duration number group can produce parses as an
integer. -/
theorem intSplits_parse (s : List Char) :
    ∀ pr ∈ intSplits s, (parseNatDigits pr.1).isSome = true := by
  intro pr hpr
  have h := plusSplits_shape s pr hpr
  simp [parseNatDigits, h.1, h.2, List.isEmpty_iff]

/-! ### Where captures come from -/

/-- The regex uses no general capture group. -/
def GrpFree : RE → Bool
  | .eps => true
  | .cls _ => true
  | .cat a b => GrpFree a && GrpFree b
  | .alt a b => GrpFree a && GrpFree b
  | .star a => GrpFree a
  | .opt a => GrpFree a
  | .wb => true
  | .grp _ => false
  | .numCap => true
  | .intCap => true

/-- The regex uses no currency number group. -/
def NumFree : RE → Bool
  | .eps => true
  | .cls _ => true
  | .cat a b => NumFree a && NumFree b
  | .alt a b => NumFree a && NumFree b
  | .star a => NumFree a
  | .opt a => NumFree a
  | .wb => true
  | .grp a => NumFree a
  | .numCap => false
  | .intCap => true

/-- In a grp-free regex, every capture handed to the continuation comes
from `numSplits` or `intSplits`, so any property `Q` holding of those
captures (and of the initially recorded capture) holds of the capture at
every successful continuation call. -/
theorem mre_cap_origin {α : Type} (Q : List Char → Prop)
    (hint : ∀ s2 (pr : List Char × List Char), pr ∈ intSplits s2 → Q pr.1) :
    ∀ (f : Nat) (re : RE) (prev : Option Char) (s : List Char)
      (cap : Option (List Char))
      (k : Option Char → List Char → Option (List Char) → Option α) (v : α),
      GrpFree re = true →
      ((∀ s2 (pr : List Char × List Char), pr ∈ numSplits s2 → Q pr.1) ∨ NumFree re = true) →
      (∀ l, cap = some l → Q l) →
      mre f re prev s cap k = some v →
      ∃ p2 s2 c2, (∀ l, c2 = some l → Q l) ∧ k p2 s2 c2 = some v := by
  intro f
  induction f with
  | zero =>
    intro re prev s cap k v _ _ _ h
    simp [mre] at h
  | succ f ih =>
    intro re prev s cap k v hg hn hcap h
    cases re with
    | eps => exact ⟨prev, s, cap, hcap, h⟩
    | cls p =>
      cases s with
      | nil => simp [mre] at h
      | cons c rest =>
        simp only [mre] at h
        by_cases hc : p c
        · rw [if_pos hc] at h
          exact ⟨some c, rest, cap, hcap, h⟩
        · rw [if_neg hc] at h
          exact absurd h (by simp)
    | cat a b =>
      simp only [mre] at h
      simp only [GrpFree, Bool.and_eq_true] at hg
      have hna : (∀ s2 (pr : List Char × List Char), pr ∈ numSplits s2 → Q pr.1) ∨
          NumFree a = true := by
        rcases hn with hn | hn
        · exact Or.inl hn
        · simp only [NumFree, Bool.and_eq_true] at hn
          exact Or.inr hn.1
      have hnb : (∀ s2 (pr : List Char × List Char), pr ∈ numSplits s2 → Q pr.1) ∨
          NumFree b = true := by
        rcases hn with hn | hn
        · exact Or.inl hn
        · simp only [NumFree, Bool.and_eq_true] at hn
          exact Or.inr hn.2
      rcases ih a prev s cap _ v hg.1 hna hcap h with ⟨p2, s2, c2, hc2, hk2⟩
      exact ih b p2 s2 c2 k v hg.2 hnb hc2 hk2
    | alt a b =>
      simp only [mre] at h
      simp only [GrpFree, Bool.and_eq_true] at hg
      have hna : (∀ s2 (pr : List Char × List Char), pr ∈ numSplits s2 → Q pr.1) ∨
          NumFree a = true := by
        rcases hn with hn | hn
        · exact Or.inl hn
        · simp only [NumFree, Bool.and_eq_true] at hn
          exact Or.inr hn.1
      have hnb : (∀ s2 (pr : List Char × List Char), pr ∈ numSplits s2 → Q pr.1) ∨
          NumFree b = true := by
        rcases hn with hn | hn
        · exact Or.inl hn
        · simp only [NumFree, Bool.and_eq_true] at hn
          exact Or.inr hn.2
      rcases ha : mre f a prev s cap k with _ | w
      · rw [ha] at h
        exact ih b prev s cap k v hg.2 hnb hcap h
      · rw [ha] at h
        simp only [Option.some_inj] at h
        subst h
        exact ih a prev s cap k w hg.1 hna hcap ha
    | opt a =>
      simp only [mre] at h
      simp only [GrpFree] at hg
      have hna : (∀ s2 (pr : List Char × List Char), pr ∈ numSplits s2 → Q pr.1) ∨
          NumFree a = true := by
        rcases hn with hn | hn
        · exact Or.inl hn
        · simp only [NumFree] at hn
          exact Or.inr hn
      rcases ha : mre f a prev s cap k with _ | w
      · rw [ha] at h
        exact ⟨prev, s, cap, hcap, h⟩
      · rw [ha] at h
        simp only [Option.some_inj] at h
        subst h
        exact ih a prev s cap k w hg hna hcap ha
    | star a =>
      simp only [mre] at h
      simp only [GrpFree] at hg
      have hna : (∀ s2 (pr : List Char × List Char), pr ∈ numSplits s2 → Q pr.1) ∨
          NumFree a = true := by
        rcases hn with hn | hn
        · exact Or.inl hn
        · simp only [NumFree] at hn
          exact Or.inr hn
      have hnstar : (∀ s2 (pr : List Char × List Char), pr ∈ numSplits s2 → Q pr.1) ∨
          NumFree (.star a) = true := by
        rcases hn with hn | hn
        · exact Or.inl hn
        · exact Or.inr hn
      rcases ha : mre f a prev s cap (fun p2 s2 c2 =>
          if s2.length < s.length then mre f (.star a) p2 s2 c2 k else k p2 s2 c2) with _ | w
      · rw [ha] at h
        exact ⟨prev, s, cap, hcap, h⟩
      · rw [ha] at h
        simp only [Option.some_inj] at h
        subst h
        rcases ih a prev s cap _ w hg hna hcap ha with ⟨p2, s2, c2, hc2, hk2⟩
        by_cases hlt : s2.length < s.length
        · rw [if_pos hlt] at hk2
          exact ih (.star a) p2 s2 c2 k w (by simpa [GrpFree] using hg) hnstar hc2 hk2
        · rw [if_neg hlt] at hk2
          exact ⟨p2, s2, c2, hc2, hk2⟩
    | wb =>
      simp only [mre] at h
      by_cases hb : wordBoundary prev s
      · rw [if_pos hb] at h
        exact ⟨prev, s, cap, hcap, h⟩
      · rw [if_neg hb] at h
        exact absurd h (by simp)
    | grp a => simp [GrpFree] at hg
    | numCap =>
      simp only [mre] at h
      rcases tryEach_some _ _ _ h with ⟨pr, hmem, hpr⟩
      have hQ : Q pr.1 := by
        rcases hn with hn | hn
        · exact hn s pr hmem
        · simp [NumFree] at hn
      refine ⟨pr.1.getLast?, pr.2, some pr.1, ?_, hpr⟩
      intro l hl
      cases hl
      exact hQ
    | intCap =>
      simp only [mre] at h
      rcases tryEach_some _ _ _ h with ⟨pr, hmem, hpr⟩
      refine ⟨pr.1.getLast?, pr.2, some pr.1, ?_, hpr⟩
      intro l hl
      cases hl
      exact hint s pr hmem

/-- Any property of `numSplits` and `intSplits` captures holds of the
capture returned by `findFirstCap` on a grp-free pattern. -/
theorem findFirstCap_Q (Q : List Char → Prop)
    (hint : ∀ s2 (pr : List Char × List Char), pr ∈ intSplits s2 → Q pr.1)
    (re : RE) (hg : GrpFree re = true)
    (hn : (∀ s2 (pr : List Char × List Char), pr ∈ numSplits s2 → Q pr.1) ∨ NumFree re = true) :
    ∀ (s : List Char) (prev : Option Char) (cap : List Char),
      findFirstCap re prev s = some cap → Q cap := by
  intro s
  induction s with
  | nil =>
    intro prev cap h
    rw [findFirstCap] at h
    rcases hr : runCapAt re prev [] with _ | tr
    · rw [hr] at h
      exact absurd h (by simp)
    · rw [hr] at h
      simp only [Option.some_inj] at h
      subst h
      rcases mre_cap_origin Q hint _ re prev [] none _ tr hg hn (by simp) hr with
        ⟨p2, s2, c2, hc2, hk2⟩
      rcases c2 with _ | l
      · exact absurd hk2 (by simp)
      · simp only [Option.some_inj] at hk2
        have := hc2 l rfl
        rw [← hk2]
        exact this
  | cons c rest ih =>
    intro prev cap h
    rw [findFirstCap] at h
    rcases hr : runCapAt re prev (c :: rest) with _ | tr
    · rw [hr] at h
      exact ih (some c) cap h
    · rw [hr] at h
      simp only [Option.some_inj] at h
      subst h
      rcases mre_cap_origin Q hint _ re prev (c :: rest) none _ tr hg hn (by simp) hr with
        ⟨p2, s2, c2, hc2, hk2⟩
      rcases c2 with _ | l
      · exact absurd hk2 (by simp)
      · simp only [Option.some_inj] at hk2
        have := hc2 l rfl
        rw [← hk2]
        exact this

/-! ### Totality of the numeric extractors -/

theorem evalValuePats_ok (t : List Char) :
    ∀ ps : List ValuePat, (∀ p ∈ ps, GrpFree p.re = true) →
      ∃ r, evalValuePats ps t = .ok r := by
  intro ps
  induction ps with
  | nil =>
    intro _
    exact ⟨none, rfl⟩
  | cons p ps ih =>
    intro hps
    simp only [evalValuePats]
    rcases hf : findFirstCap p.re none t with _ | cap
    · exact ih (fun q hq => hps q (List.mem_cons_of_mem _ hq))
    · have hQ : (parseFloat (stripCommas cap)).isSome = true := by
        refine findFirstCap_Q (fun l => (parseFloat (stripCommas l)).isSome = true)
          ?_ p.re (hps p (List.mem_cons_self _ _)) (Or.inl ?_) t none cap hf
        · intro s2 pr hpr
          have h := plusSplits_shape s2 pr hpr
          rw [stripCommas_all_digits pr.1 h.2]
          exact parseFloat_digits pr.1 h.1 h.2
        · intro s2 pr hpr
          exact numSplits_parse s2 pr hpr
      rcases Option.isSome_iff_exists.1 hQ with ⟨v, hv⟩
      exact ⟨some (normValue p.src v), by simp [hv]⟩

theorem extract_contract_value_ok (t : List Char) :
    ∃ r, extract_contract_value t = .ok r :=
  evalValuePats_ok t valuePatterns (by decide)

theorem evalDurPats_ok (t : List Char) :
    ∀ ps : List DurPat, (∀ p ∈ ps, GrpFree p.re = true ∧ NumFree p.re = true) →
      ∃ r, evalDurPats ps t = .ok r := by
  intro ps
  induction ps with
  | nil =>
    intro _
    exact ⟨none, rfl⟩
  | cons p ps ih =>
    intro hps
    simp only [evalDurPats]
    rcases hf : findFirstCap p.re none t with _ | cap
    · exact ih (fun q hq => hps q (List.mem_cons_of_mem _ hq))
    · have hQ : (parseNatDigits cap).isSome = true := by
        refine findFirstCap_Q (fun l => (parseNatDigits l).isSome = true)
          (fun s2 pr hpr => intSplits_parse s2 pr hpr) p.re
          (hps p (List.mem_cons_self _ _)).1
          (Or.inr (hps p (List.mem_cons_self _ _)).2) t none cap hf
      rcases Option.isSome_iff_exists.1 hQ with ⟨n, hn⟩
      exact ⟨some (if containsSub (toL "year") p.src then n * 12 else n), by simp [hn]⟩

theorem extract_duration_ok (t : List Char) :
    ∃ r, extract_duration t = .ok r :=
  evalDurPats_ok t durationPatterns (by decide)

/-! ### Lemmas about the summarizer -/

theorem insGE_mem (a x : Nat × List Char) (l : List (Nat × List Char))
    (h : a ∈ insGE x l) : a = x ∨ a ∈ l := by
  induction l with
  | nil =>
    simp only [insGE, List.mem_singleton] at h
    exact Or.inl h
  | cons y ys ih =>
    simp only [insGE] at h
    split at h
    · rcases List.mem_cons.1 h with h | h
      · exact Or.inr (List.mem_cons.2 (Or.inl h))
      · rcases ih h with h | h
        · exact Or.inl h
        · exact Or.inr (List.mem_cons.2 (Or.inr h))
    · rcases List.mem_cons.1 h with h | h
      · exact Or.inl h
      · exact Or.inr h

theorem sortScored_mem (a : Nat × List Char) (l : List (Nat × List Char))
    (h : a ∈ sortScored l) : a ∈ l := by
  suffices hgen : ∀ (l acc : List (Nat × List Char)),
      a ∈ l.foldl (fun acc x => insGE x acc) acc → a ∈ acc ∨ a ∈ l by
    rcases hgen l [] h with h2 | h2
    · exact absurd h2 (by simp)
    · exact h2
  intro l
  induction l with
  | nil =>
    intro acc h2
    exact Or.inl h2
  | cons x xs ih =>
    intro acc h2
    rcases ih (insGE x acc) h2 with h3 | h3
    · rcases insGE_mem a x acc h3 with h4 | h4
      · exact Or.inr (List.mem_cons.2 (Or.inl h4))
      · exact Or.inl h4
    · exact Or.inr (List.mem_cons.2 (Or.inr h3))

theorem insGE_length (x : Nat × List Char) (l : List (Nat × List Char)) :
    (insGE x l).length = l.length + 1 := by
  induction l with
  | nil => simp [insGE]
  | cons y ys ih =>
    simp only [insGE]
    split <;> simp [ih]

theorem sortScored_length (l : List (Nat × List Char)) :
    (sortScored l).length = l.length := by
  suffices hgen : ∀ (l acc : List (Nat × List Char)),
      (l.foldl (fun acc x => insGE x acc) acc).length = acc.length + l.length by
    simpa using hgen l []
  intro l
  induction l with
  | nil => intro acc; simp
  | cons x xs ih =>
    intro acc
    simp only [List.foldl_cons, List.length_cons]
    rw [ih (insGE x acc), insGE_length]
    omega

theorem joinPieces_ne_nil (x : List Char) (r : List (List Char)) (hx : x ≠ []) :
    joinPieces (x :: r) ≠ [] := by
  cases r with
  | nil => simpa [joinPieces] using hx
  | cons y ys =>
    simp only [joinPieces]
    intro h
    have hlen : 0 < x.length := List.length_pos.2 hx
    have hsep : (toL ". ").length = 2 := rfl
    have h2 := congrArg List.length h
    simp only [List.length_append, hsep, List.length_nil] at h2
    omega

theorem surviving_long (t : List Char) (s : List Char) (h : s ∈ survivingSents t) :
    20 < s.length := by
  unfold survivingSents at h
  have := List.of_mem_filter h
  simpa using this

/-! ### Lemmas about the service classifier -/

theorem findLabel_mem (ls : List (List Char)) (tl : List Char) (l : List Char)
    (h : findLabel ls tl = some l) : l ∈ ls ∧ containsSub l tl = true := by
  induction ls with
  | nil => simp [findLabel] at h
  | cons x xs ih =>
    simp only [findLabel] at h
    split at h
    · simp only [Option.some_inj] at h
      subst h
      exact ⟨List.mem_cons_self _ _, by assumption⟩
    · rcases ih h with ⟨h1, h2⟩
      exact ⟨List.mem_cons_of_mem _ h1, h2⟩

theorem mem_of_listStarts (c : Char) (p s : List Char)
    (h : listStarts (c :: p) s = true) : c ∈ s := by
  cases s with
  | nil => simp [listStarts] at h
  | cons d ds =>
    simp only [listStarts, Bool.and_eq_true, decide_eq_true_eq] at h
    rw [h.1]
    exact List.mem_cons_self _ _

theorem mem_of_containsSub (c : Char) (p s : List Char)
    (h : containsSub (c :: p) s = true) : c ∈ s := by
  induction s with
  | nil => simp [containsSub, listStarts] at h
  | cons d ds ih =>
    simp only [containsSub, Bool.or_eq_true] at h
    rcases h with h | h
    · exact mem_of_listStarts c p _ h
    · exact List.mem_cons_of_mem _ (ih h)

/-- No upper-case letter survives lower-casing, so a label starting with
an upper-case letter never occurs in the lower-cased text. -/
theorem containsSub_upper_lower (u : Char) (hu : 'A' ≤ u ∧ u ≤ 'Z') (p t : List Char) :
    containsSub (u :: p) (lowerL t) = false := by
  by_contra h
  rw [Bool.not_eq_false] at h
  have hm := mem_of_containsSub u p _ h
  rcases List.mem_map.1 hm with ⟨x, _, hx⟩
  exact asciiLower_ne u hu x hx

/-! ### Scoring and duration refinement lemmas -/

/-- The membership-test score of the code equals the distinct-keyword
occurrence score. -/
theorem sentScore_eq_distinct (s : List Char) : sentScore s = distinctScore s := by
  unfold sentScore distinctScore
  rw [List.countP_eq_length_filter]
  congr 1
  apply List.filter_congr
  intro kw _
  cases h : containsSub (lowerL kw) (lowerL s) with
  | false =>
    have hc := containsSub_iff_countOccs (lowerL kw) (lowerL s)
    rw [h] at hc
    have : ¬ 0 < countOccs (lowerL kw) (lowerL s) := fun hlt => by
      exact absurd (hc.2 hlt) (by simp)
    simp [this]
  | true =>
    have hc := (containsSub_iff_countOccs (lowerL kw) (lowerL s)).1 h
    simp [hc]

theorem evalDurPats_spec_agree :
    ∀ (ps : List DurPat) (qs : List (RE × Bool)),
      ps.map (fun p => (p.re, containsSub (toL "year") p.src)) = qs →
      ∀ t, evalDurPats ps t = evalDurSpec qs t := by
  intro ps
  induction ps with
  | nil =>
    intro qs hqs t
    rw [← hqs]
    rfl
  | cons p ps ih =>
    intro qs hqs t
    rw [← hqs]
    simp only [List.map_cons, evalDurPats, evalDurSpec]
    rcases hf : findFirstCap p.re none t with _ | cap
    · exact ih _ rfl t
    · rcases hn : parseNatDigits cap with _ | n
      · rfl
      · rfl

/-! ### Claim theorems -/

/-- Claim C1 (code_bug evaluation).  On the fixed page whose normalized
body text is "acme corp announces $5 million contract with beta inc for
12 months of cloud services", `process_contract_page` passes the
qualifying gate and extracts value 5.0, duration 12 and service type
"cloud" with vendor "Acme Corp" as the claim states — but the client
field is "million contract with Beta Inc", not "Beta Inc": under
`re.IGNORECASE` the `[A-Z]` anchor of the organization pattern also
matches lower-case letters, so the second collected span starts at
"million". -/
theorem c1_process_fixture :
    process_contract_page (toL "http://example.com/pr") (some c1Content) =
      .ok (some
        { url := toL "http://example.com/pr"
          title := toL "Press Release"
          announcement_date := toL "2024-01-05"
          summary := c1Original
          estimated_value := some (mkRat 5 1)
          vendor := some (toL "Acme Corp")
          client := some (toL "million contract with Beta Inc")
          duration_months := some 12
          service_type := some (toL "cloud") }) := by
  decide

/-- Claim C2 (code_bug evaluation).  The first matching pattern of
"$5 m deal" is the abbreviated-million pattern `\$\s*(...)\s*m\b`, yet
the extractor returns 5/1000000 instead of the claimed unchanged 5: the
branch test `' m\b' in pattern` looks for a space before `m\b` while the
pattern spells `\s*m\b`, so the test can never be true and the
abbreviated-unit patterns fall into the bare-dollar branch that divides
by 1,000,000. -/
theorem c2_m_pattern_falls_to_bare_dollar :
    extract_contract_value (toL "$5 m deal") = .ok (some (mkRat 1 200000)) ∧
    containsSub (toL " m\\b") (toL "\\$\\s*(\\d+(?:,\\d{3})*(?:\\.\\d+)?)\\s*m\\b") = false := by
  constructor
  · decide
  · decide

/-- Claim C3 counterexample.  On "$2,500,000 contract for services" no
currency pattern matches — the bare-dollar pattern `contract for $X`
needs the dollar amount after "contract for" — so the extractor returns
`None`, not the claimed 2.5. -/
theorem c3_no_pattern_matches :
    extract_contract_value (toL "$2,500,000 contract for services") = .ok none ∧
    (Except.ok none : Except Unit (Option ℚ)) ≠ .ok (some (mkRat 5 2)) := by
  constructor
  · decide
  · decide

/-- Claim C3 amended.  When "contract for" directly precedes the dollar
amount, the bare-dollar fallback strips the commas and divides the raw
dollar figure by 1,000,000: 2.5 on "contract for $2,500,000". -/
theorem c3_bare_dollar_fallback :
    extract_contract_value (toL "contract for $2,500,000") = .ok (some (mkRat 5 2)) := by
  decide

/-- Claim C4 (code_bug evaluation).  On "Acme Solutions Inc. signed with
Beta Systems LLC" the extractor returns "Acme Solutions Inc" followed by
"signed with Beta Systems LLC", not "Beta Systems LLC": with
`re.IGNORECASE` the `[A-Z]` anchor also matches the lower-case "s" of
"signed".  The returned entries are deduplicated, longer than 5
characters, and at most 5 in number, as the claim states. -/
theorem c4_organizations_fixture :
    extract_organizations (toL "Acme Solutions Inc. signed with Beta Systems LLC") =
      [toL "Acme Solutions Inc", toL "signed with Beta Systems LLC"] := by
  decide

/-- Claim C5 counterexample.  On the one-sentence text in which
"company" occurs three times and "contract" once, the claimed score
(total keyword occurrences, 4) differs from the score the code computes
(one per keyword present, 2): the scoring is a membership test per
keyword, not an occurrence count. -/
theorem c5_occurrence_counterexample :
    ¬ (∀ s ∈ (survivingSents c5Text).take 10, sentScore s = occScore s) := by
  decide

/-- Claim C5 amended.  In `generate_summary`, the score attached to each
of the first 10 surviving sentences is the number of distinct keywords of
the fixed set occurring in the sentence (case-insensitively), each
keyword contributing at most 1 however often it occurs. -/
theorem c5_distinct_scoring (t : List Char) :
    scoredOf t = ((survivingSents t).take 10).map (fun s => (distinctScore s, s)) := by
  unfold scoredOf
  apply List.map_congr_left
  intro s _
  rw [sentScore_eq_distinct]

/-- Witness for C5 at the counterexample text. -/
theorem c5_distinct_scoring_witness :
    scoredOf c5Text = [(2, c5Text)] :=
  (c5_distinct_scoring c5Text).trans (by decide)

/-- Claim C6.  For every input, the summary is at most 503 characters
long (500 plus the ellipsis) — which also discharges the claimed
disjunction with the no-summary literal — and is never empty. -/
theorem c6_summary_bounds (t : List Char) :
    ((generate_summary t).length ≤ 503 ∨ generate_summary t = toL "No summary available.") ∧
      generate_summary t ≠ [] := by
  unfold generate_summary generate_summary_max
  by_cases h0 : t.isEmpty = true
  · rw [if_pos h0]
    exact ⟨Or.inl (by decide), by decide⟩
  · rw [if_neg h0]
    by_cases h1 : (survivingSents t).isEmpty = true
    · rw [if_pos h1]
      exact ⟨Or.inl (by decide), by decide⟩
    · rw [if_neg h1]
      have hne : survivingSents t ≠ [] := by
        simpa [List.isEmpty_iff] using h1
      obtain ⟨a, as, ha⟩ := List.exists_cons_of_ne_nil hne
      have hsc : scoredOf t ≠ [] := by
        unfold scoredOf
        rw [ha]
        simp
      have hslen : 0 < (sortScored (scoredOf t)).length := by
        rw [sortScored_length]
        exact List.length_pos.2 hsc
      obtain ⟨z, zs, hz⟩ :=
        List.exists_cons_of_ne_nil (List.length_pos.1 hslen)
      have hzmem : z ∈ scoredOf t :=
        sortScored_mem z _ (by rw [hz]; exact List.mem_cons_self _ _)
      have hz2 : 20 < z.2.length := by
        unfold scoredOf at hzmem
        rcases List.mem_map.1 hzmem with ⟨s, hs, hfs⟩
        have hs2 : s ∈ survivingSents t := List.mem_of_mem_take hs
        have hlong := surviving_long t s hs2
        rw [← hfs]
        exact hlong
      have hzne : z.2 ≠ [] := by
        intro hz0
        rw [hz0] at hz2
        simp at hz2
      have htop : summaryTop 3 t = z.2 :: (zs.take 2).map (fun p => p.2) := by
        unfold summaryTop
        rw [hz]
        rfl
      constructor
      · unfold truncate500
        split
        · left
          have h3 : (toL "...").length = 3 := rfl
          have h4 := List.length_take_le 500 (joinPieces (summaryTop 3 t))
          rw [List.length_append, h3]
          omega
        · rename_i hle
          left
          omega
      · unfold truncate500
        split
        · intro hx
          have h3 : (toL "...").length = 3 := rfl
          have h4 := congrArg List.length hx
          rw [List.length_append, h3] at h4
          simp at h4
        · rw [htop]
          exact joinPieces_ne_nil z.2 _ hzne

/-- Witness for C6 at a concrete text. -/
theorem c6_summary_bounds_witness :
    ((generate_summary (toL "short text")).length ≤ 503 ∨
        generate_summary (toL "short text") = toL "No summary available.") ∧
      generate_summary (toL "short text") ≠ [] :=
  c6_summary_bounds (toL "short text")

/-- Claim C7.  `process_contract_page` returns the absent result, not an
error, both when the fetch collaborator fails (its outcome is `none`) and
when the lower-cased normalized text lacks the substring "contract",
whatever the other fields contain. -/
theorem c7_gate (url : List Char) (fetched : Option ContentData) :
    (fetched = none → process_contract_page url fetched = .ok none) ∧
    (∀ cd, fetched = some cd → containsSub (toL "contract") cd.text = false →
      process_contract_page url fetched = .ok none) := by
  constructor
  · intro h
    subst h
    rfl
  · intro cd h hc
    subst h
    unfold process_contract_page
    simp [hc]

/-- Witness for C7: a failed fetch and a page without "contract". -/
theorem c7_gate_witness :
    process_contract_page (toL "http://u") none = .ok none ∧
    process_contract_page (toL "http://u")
      (some { text := toL "a $9 million deal for 3 years of cloud work",
              original_text := toL "A $9 million deal for 3 years of cloud work",
              title := toL "t", publication_date := toL "2024-01-01" }) = .ok none :=
  ⟨(c7_gate (toL "http://u") none).1 rfl,
   (c7_gate (toL "http://u") _).2 _ rfl (by decide)⟩

/-- Claim C8.  Every extractor is total: the two extractors that parse
captured numbers never hit the error case (their captures always parse,
by the shape lemmas on the capture groups), and the remaining extractors
are total functions into their result types. -/
theorem c8_extractors_total (t : List Char) :
    (∃ v, extract_contract_value t = .ok v) ∧ (∃ d, extract_duration t = .ok d) ∧
    (∃ os, extract_organizations t = os) ∧ (∃ st, extract_service_type t = st) ∧
    (∃ sm, generate_summary t = sm) :=
  ⟨extract_contract_value_ok t, extract_duration_ok t, ⟨_, rfl⟩, ⟨_, rfl⟩, ⟨_, rfl⟩⟩

/-- Witness for C8 at a concrete text. -/
theorem c8_extractors_total_witness :
    (∃ v, extract_contract_value (toL "worth $1,234.5 million over 2 years") = .ok v) ∧
    (∃ d, extract_duration (toL "worth $1,234.5 million over 2 years") = .ok d) ∧
    (∃ os, extract_organizations (toL "worth $1,234.5 million over 2 years") = os) ∧
    (∃ st, extract_service_type (toL "worth $1,234.5 million over 2 years") = st) ∧
    (∃ sm, generate_summary (toL "worth $1,234.5 million over 2 years") = sm) :=
  c8_extractors_total (toL "worth $1,234.5 million over 2 years")

/-- Claim C9.  The duration extractor tries its eight patterns in the
fixed source order (the generic year/month patterns before the
"duration of"/"term of" variants), uses the first matching pattern's
first captured integer, and multiplies by 12 exactly on year patterns:
it agrees everywhere with the spec-side description `durationSpec`, and
on "a term of 24 months and 1 year" the generic year pattern wins,
giving 12 rather than the 24 a specific-first order would give. -/
theorem c9_duration_order :
    extract_duration (toL "a 2-year contract") = .ok (some 24) ∧
    extract_duration (toL "term of 18 months") = .ok (some 18) ∧
    extract_duration (toL "a term of 24 months and 1 year") = .ok (some 12) ∧
    ∀ t, extract_duration t = durationSpec t := by
  refine ⟨by decide, by decide, by decide, ?_⟩
  intro t
  exact evalDurPats_spec_agree durationPatterns durationSpecList rfl t

/-- Witness for C9 at a concrete text. -/
theorem c9_duration_order_witness :
    extract_duration (toL "duration of 5 years") =
      durationSpec (toL "duration of 5 years") :=
  c9_duration_order.2.2.2 (toL "duration of 5 years")

/-- Claim C10.  The service classifier lower-cases its input before the
substring test while the labels "AI" and "BPO" contain upper-case
letters, so those two labels are never returned: for every input the
result is `none` or one of the other eleven taxonomy labels. -/
theorem c10_no_ai_bpo (t : List Char) :
    extract_service_type t ≠ some (toL "AI") ∧
    extract_service_type t ≠ some (toL "BPO") ∧
    (extract_service_type t = none ∨ ∃ l ∈ otherLabels, extract_service_type t = some l) := by
  have hAI : containsSub (toL "AI") (lowerL t) = false :=
    containsSub_upper_lower 'A' (by decide) (toL "I") t
  have hBPO : containsSub (toL "BPO") (lowerL t) = false :=
    containsSub_upper_lower 'B' (by decide) (toL "PO") t
  rcases h : extract_service_type t with _ | l
  · exact ⟨by simp [h], by simp [h], Or.inl rfl⟩
  · have hm := findLabel_mem SERVICE_TYPES (lowerL t) l h
    have hlAI : l ≠ toL "AI" := by
      intro he
      rw [he] at hm
      exact absurd hm.2 (by simp [hAI])
    have hlBPO : l ≠ toL "BPO" := by
      intro he
      rw [he] at hm
      exact absurd hm.2 (by simp [hBPO])
    have hmem : l ∈ otherLabels := by
      have h13 := hm.1
      simp only [SERVICE_TYPES, List.mem_cons, List.not_mem_nil, or_false] at h13
      rcases h13 with rfl | rfl | rfl | rfl | rfl | rfl | rfl | rfl | rfl | rfl | rfl | rfl | rfl
      all_goals first
        | exact absurd rfl hlAI
        | exact absurd rfl hlBPO
        | decide
    exact ⟨by simp [hlAI], by simp [hlBPO], Or.inr ⟨l, hmem, rfl⟩⟩

/-- Witness for C10: upper-case "AI" in the input is not matched, the
lower-case label "data" is. -/
theorem c10_no_ai_bpo_witness :
    extract_service_type (toL "an AI data platform") ≠ some (toL "AI") ∧
    extract_service_type (toL "an AI data platform") ≠ some (toL "BPO") ∧
    (extract_service_type (toL "an AI data platform") = none ∨
      ∃ l ∈ otherLabels, extract_service_type (toL "an AI data platform") = some l) :=
  c10_no_ai_bpo (toL "an AI data platform")

end App
